import Mathlib

/-!
Shallow embedding of the `dennis` DNS codec (src/dennis/src/{message,parser,codec}.rs)
over byte buffers modelled as `List Nat` (each entry a byte value < 256) with an
explicit cursor position, together with proofs of the specification claims.

The Rust parser runs winnow parsers over `Located<&[u8]>`.  `Located` over a plain
slice is a *complete* input stream in winnow (`StreamIsPartial` is false), so a
primitive that runs out of bytes fails with `ErrMode::Backtrack`, never
`ErrMode::Incomplete`; the embedding mirrors that.  The pointer recursion in
`parser.rs::name` has no termination guard in the source; the embedding adds an
explicit fuel parameter, and `PResult.err .fuelOut` marks the executions on which
the Rust code recurses without bound (stack overflow).
-/

set_option maxRecDepth 8192
set_option maxHeartbeats 1000000

namespace Dennis

/-- Error modes of a winnow parser (`winnow::error::ErrMode`).  `incomplete` exists in
winnow but is only ever produced by partial streams; `fuelOut` is an artifact of the
embedding marking unbounded recursion of the source's `name` parser. -/
inductive ErrMode where
  | incomplete
  | backtrack
  | cut
  | fuelOut
deriving DecidableEq

/-- Result of a parser step: a value together with the new cursor position, or an error. -/
inductive PResult (α : Type) where
  | ok : α → Nat → PResult α
  | err : ErrMode → PResult α
deriving DecidableEq

/-- `winnow::binary::be_u8`: read one byte.  On a complete stream an empty rest fails
with backtrack. -/
def beU8 (buf : List Nat) (pos : Nat) : PResult Nat :=
  match buf.drop pos with
  | b :: _ => .ok b (pos + 1)
  | [] => .err .backtrack

/-- `winnow::token::take(n)`: read exactly `n` bytes. -/
def takeP (n : Nat) (buf : List Nat) (pos : Nat) : PResult (List Nat) :=
  if pos + n ≤ buf.length then .ok ((buf.drop pos).take n) (pos + n) else .err .backtrack

/-- `winnow::binary::be_u16`: read two bytes, big endian. -/
def beU16 (buf : List Nat) (pos : Nat) : PResult Nat :=
  match buf.drop pos with
  | b0 :: b1 :: _ => .ok (b0 * 256 + b1) (pos + 2)
  | _ => .err .backtrack

/-- `winnow::binary::be_u32`: read four bytes, big endian. -/
def beU32 (buf : List Nat) (pos : Nat) : PResult Nat :=
  match buf.drop pos with
  | b0 :: b1 :: b2 :: b3 :: _ =>
      .ok (((b0 * 256 + b1) * 256 + b2) * 256 + b3) (pos + 4)
  | _ => .err .backtrack

/-- Is `b` a UTF-8 continuation byte (`0x80..=0xBF`)?  Used by `utf8Valid`. -/
def utf8Cont (b : Nat) : Bool := 0x80 ≤ b && b ≤ 0xBF

/-- UTF-8 validity of a byte sequence, per the Unicode well-formedness table; this is
the acceptance condition of `std::str::from_utf8`, which `parser.rs::label` applies
via `try_map`. -/
def utf8Valid : List Nat → Bool
  | [] => true
  | b :: rest =>
    if b ≤ 0x7F then utf8Valid rest
    else if 0xC2 ≤ b && b ≤ 0xDF then
      match rest with
      | c1 :: rest2 => utf8Cont c1 && utf8Valid rest2
      | [] => false
    else if b = 0xE0 then
      match rest with
      | c1 :: c2 :: rest2 => (0xA0 ≤ c1 && c1 ≤ 0xBF) && utf8Cont c2 && utf8Valid rest2
      | _ => false
    else if (0xE1 ≤ b && b ≤ 0xEC) || b = 0xEE || b = 0xEF then
      match rest with
      | c1 :: c2 :: rest2 => utf8Cont c1 && utf8Cont c2 && utf8Valid rest2
      | _ => false
    else if b = 0xED then
      match rest with
      | c1 :: c2 :: rest2 => (0x80 ≤ c1 && c1 ≤ 0x9F) && utf8Cont c2 && utf8Valid rest2
      | _ => false
    else if b = 0xF0 then
      match rest with
      | c1 :: c2 :: c3 :: rest2 =>
          (0x90 ≤ c1 && c1 ≤ 0xBF) && utf8Cont c2 && utf8Cont c3 && utf8Valid rest2
      | _ => false
    else if 0xF1 ≤ b && b ≤ 0xF3 then
      match rest with
      | c1 :: c2 :: c3 :: rest2 =>
          utf8Cont c1 && utf8Cont c2 && utf8Cont c3 && utf8Valid rest2
      | _ => false
    else if b = 0xF4 then
      match rest with
      | c1 :: c2 :: c3 :: rest2 =>
          (0x80 ≤ c1 && c1 ≤ 0x8F) && utf8Cont c2 && utf8Cont c3 && utf8Valid rest2
      | _ => false
    else false

/-- `parser.rs::label`: `length_take(be_u8).try_map(std::str::from_utf8)` — a length
byte `n`, then `n` bytes that must be valid UTF-8 (a Rust `String` is its UTF-8
bytes, so the label value is kept as the byte list). -/
def labelP (buf : List Nat) (pos : Nat) : PResult (List Nat) :=
  match beU8 buf pos with
  | .ok n p1 =>
    match takeP n buf p1 with
    | .ok bs p2 => if utf8Valid bs then .ok bs p2 else .err .backtrack
    | .err e => .err e
  | .err e => .err e

/-- `parser.rs::name_end`: `alt((b"\0".value(None), be_u16.verify(|u| u > &0x3fff).map(|u| Some(u & 0x3fff))))`.
A zero first byte ends the name with no pointer; otherwise a big-endian `u16` strictly
greater than `0x3fff` is a pointer whose offset is its low 14 bits; anything else
backtracks. -/
def nameEnd (buf : List Nat) (pos : Nat) : PResult (Option Nat) :=
  match buf.drop pos with
  | b0 :: rest =>
      if b0 = 0 then .ok none (pos + 1)
      else
        match rest with
        | b1 :: _ =>
            if b0 * 256 + b1 > 0x3fff then .ok (some ((b0 * 256 + b1) % 0x4000)) (pos + 2)
            else .err .backtrack
        | [] => .err .backtrack
  | [] => .err .backtrack

/-- `repeat_till(0.., label, name_end)` from `parser.rs::name`: each round first tries
`name_end`; on its backtrack the position is reset and one `label` is parsed.  The
fuel only bounds the number of rounds; since every parsed label consumes at least one
byte, any fuel exceeding the buffer length is enough (`repeatTill_no_fuelOut`). -/
def repeatTill : Nat → List Nat → Nat → PResult (List (List Nat) × Option Nat)
  | 0, _, _ => .err .fuelOut
  | f + 1, buf, pos =>
    match nameEnd buf pos with
    | .ok e p1 => .ok ([], e) p1
    | .err .backtrack =>
      match labelP buf pos with
      | .ok l p1 =>
        match repeatTill f buf p1 with
        | .ok (ls, e) p2 => .ok (l :: ls, e) p2
        | .err e => .err e
      | .err e => .err e
    | .err e => .err e

/-- `message.rs::Name`: an owned sequence of labels; a label is the byte sequence of
its Rust `String`. -/
structure Name where
  labels : List (List Nat)
deriving DecidableEq

/-- `parser.rs::name` with explicit fuel for the pointer recursion.  One round:
`repeat_till(0.., label, name_end)`, then, if the name ended in a pointer, clone the
stream, `reset_to_start`, `take(pointer)` (which requires the offset to lie within
the buffer) and recursively parse a name there, appending its labels; the cursor of
the outer parse stays right after the pointer bytes.  The source has no fuel: a
`fuelOut` result for every fuel value means the Rust code recurses forever. -/
def nameP : Nat → List Nat → Nat → PResult Name
  | 0, _, _ => .err .fuelOut
  | f + 1, buf, pos =>
    match repeatTill (buf.length + 1) buf pos with
    | .ok (ls, none) p1 => .ok ⟨ls⟩ p1
    | .ok (ls, some ptr) p1 =>
      if ptr ≤ buf.length then
        match nameP f buf ptr with
        | .ok nm _ => .ok ⟨ls ++ nm.labels⟩ p1
        | .err e => .err e
      else .err .backtrack
    | .err e => .err e

/-- `parser.rs::name` as called by the structural parsers, with canonical fuel
`buf.length + 1`: a terminating pointer chain never revisits an offset (the parse at
a fixed offset is deterministic, so a revisit loops forever), hence visits at most
`buf.length` distinct offsets; with this fuel, `fuelOut` occurs exactly when the Rust
code fails to terminate. -/
def parseName (buf : List Nat) (pos : Nat) : PResult Name :=
  nameP (buf.length + 1) buf pos

/-- `message.rs::Flags`, a `bitbybit::bitfield(u16)`: the generated struct stores the
raw 16-bit word; `new_with_raw_value` stores it and `raw_value` reads it back, while
the field accessors mask and shift.  In bitbybit, `#[bit(0)]` is the LEAST
significant bit. -/
structure Flags where
  raw_value : Nat
deriving DecidableEq

/-- bitbybit-generated `Flags::new_with_raw_value(value: u16)`; the `% 65536` models
the `u16` domain of the argument. -/
def Flags.new_with_raw_value (r : Nat) : Flags := ⟨r % 65536⟩

/-- Accessor for `#[bit(0)] qr` (bit 0 = least significant bit in bitbybit). -/
def Flags.qr (f : Flags) : Bool := f.raw_value % 2 = 1

/-- Accessor for `#[bits(1..=4)] opcode`, as the raw 4-bit code (`Opcode` is a
non-exhaustive `bitenum`, so every 4-bit value is representable). -/
def Flags.opcode (f : Flags) : Nat := f.raw_value / 2 % 16

/-- Accessor for `#[bit(5)] aa`. -/
def Flags.aa (f : Flags) : Bool := f.raw_value / 32 % 2 = 1

/-- Accessor for `#[bit(6)] tc`. -/
def Flags.tc (f : Flags) : Bool := f.raw_value / 64 % 2 = 1

/-- Accessor for `#[bit(7)] rd`. -/
def Flags.rd (f : Flags) : Bool := f.raw_value / 128 % 2 = 1

/-- Accessor for `#[bit(8)] ra`. -/
def Flags.ra (f : Flags) : Bool := f.raw_value / 256 % 2 = 1

/-- Accessor for `#[bits(9..=11)] z`, the 3 reserved bits. -/
def Flags.z (f : Flags) : Nat := f.raw_value / 512 % 8

/-- Accessor for `#[bits(12..=15)] rcode`, as the raw 4-bit code. -/
def Flags.rcode (f : Flags) : Nat := f.raw_value / 4096 % 16

/-- `message.rs::Header`: 16-bit id, flags, four 16-bit counts. -/
structure Header where
  id : Nat
  flags : Flags
  qd_count : Nat
  an_count : Nat
  ns_count : Nat
  ar_count : Nat
deriving DecidableEq

/-- `message.rs::Question` (`qname`, `qtype`, `qclass`). -/
structure Question where
  qname : Name
  qtype : Nat
  qclass : Nat
deriving DecidableEq

/-- `message.rs::ResourceRecord`.  The Rust fields `r#type` and `class` are named
`rtype` and `rclass` here because `class` is a Lean keyword. -/
structure ResourceRecord where
  name : Name
  rtype : Nat
  rclass : Nat
  ttl : Nat
  rdlength : Nat
  rdata : List Nat
deriving DecidableEq

/-- `message.rs::Message`: header plus the four sections. -/
structure Message where
  header : Header
  question : List Question
  answer : List ResourceRecord
  authority : List ResourceRecord
  additional : List ResourceRecord
deriving DecidableEq

/-- `parser.rs::header`: six big-endian `u16` reads. -/
def headerP (buf : List Nat) (pos : Nat) : PResult Header :=
  match beU16 buf pos with
  | .ok id p1 =>
    match beU16 buf p1 with
    | .ok flags p2 =>
      match beU16 buf p2 with
      | .ok qd p3 =>
        match beU16 buf p3 with
        | .ok an p4 =>
          match beU16 buf p4 with
          | .ok ns p5 =>
            match beU16 buf p5 with
            | .ok ar p6 => .ok ⟨id, Flags.new_with_raw_value flags, qd, an, ns, ar⟩ p6
            | .err e => .err e
          | .err e => .err e
        | .err e => .err e
      | .err e => .err e
    | .err e => .err e
  | .err e => .err e

/-- `parser.rs::question`: a name, then `qtype` and `qclass`. -/
def questionP (buf : List Nat) (pos : Nat) : PResult Question :=
  match parseName buf pos with
  | .ok qname p1 =>
    match beU16 buf p1 with
    | .ok qtype p2 =>
      match beU16 buf p2 with
      | .ok qclass p3 => .ok ⟨qname, qtype, qclass⟩ p3
      | .err e => .err e
    | .err e => .err e
  | .err e => .err e

/-- `parser.rs::resource_record`: a name, type, class, ttl, rdlength, then exactly
`rdlength` raw bytes of rdata. -/
def rrP (buf : List Nat) (pos : Nat) : PResult ResourceRecord :=
  match parseName buf pos with
  | .ok nm p1 =>
    match beU16 buf p1 with
    | .ok ty p2 =>
      match beU16 buf p2 with
      | .ok cl p3 =>
        match beU32 buf p3 with
        | .ok ttl p4 =>
          match beU16 buf p4 with
          | .ok rdlength p5 =>
            match takeP rdlength buf p5 with
            | .ok rdata p6 => .ok ⟨nm, ty, cl, ttl, rdlength, rdata⟩ p6
            | .err e => .err e
          | .err e => .err e
        | .err e => .err e
      | .err e => .err e
    | .err e => .err e
  | .err e => .err e

/-- `winnow::combinator::repeat(count, parser)` with an exact count: parse the element
exactly `n` times, collecting the results in order. -/
def repeatN {α : Type} (p : List Nat → Nat → PResult α) :
    Nat → List Nat → Nat → PResult (List α)
  | 0, _, pos => .ok [] pos
  | n + 1, buf, pos =>
    match p buf pos with
    | .ok a p1 =>
      match repeatN p n buf p1 with
      | .ok as p2 => .ok (a :: as) p2
      | .err e => .err e
    | .err e => .err e

/-- `parser.rs::message`: header, then exactly `qd_count` questions and
`an_count`/`ns_count`/`ar_count` resource records in section order. -/
def messageP (buf : List Nat) (pos : Nat) : PResult Message :=
  match headerP buf pos with
  | .ok h p1 =>
    match repeatN questionP h.qd_count buf p1 with
    | .ok qs p2 =>
      match repeatN rrP h.an_count buf p2 with
      | .ok ans p3 =>
        match repeatN rrP h.ns_count buf p3 with
        | .ok auth p4 =>
          match repeatN rrP h.ar_count buf p4 with
          | .ok add p5 => .ok ⟨h, qs, ans, auth, add⟩ p5
          | .err e => .err e
        | .err e => .err e
      | .err e => .err e
    | .err e => .err e
  | .err e => .err e

/-- Error type of `DnsCodec::decode` (`io::Error` of kind `InvalidData` in the
source); `modelDiverged` marks inputs on which the Rust parser recurses forever, so
that `decode` never actually returns there. -/
inductive DecodeError where
  | invalidData
  | modelDiverged
deriving DecidableEq

instance {ε α : Type} [DecidableEq ε] [DecidableEq α] : DecidableEq (Except ε α) := by
  intro x y
  cases x <;> cases y
  case error.error a b =>
    exact if h : a = b then .isTrue (by simp [h]) else .isFalse (by simp [h])
  case error.ok a b => exact .isFalse (by simp)
  case ok.error a b => exact .isFalse (by simp)
  case ok.ok a b =>
    exact if h : a = b then .isTrue (by simp [h]) else .isFalse (by simp [h])

/-- `codec.rs::DnsCodec::decode`: run `parser::message` on a `Located` view of the
buffer; on success advance the source buffer by exactly the bytes the parser
consumed (`offset_from(start)`) and return the message; on `ErrMode::Incomplete`
return `Ok(None)` leaving the buffer untouched (with a complete stream this arm is
unreachable); on any other error return an `InvalidData` error leaving the buffer
untouched.  The returned pair is (result, final buffer contents). -/
def decode (src : List Nat) : Except DecodeError (Option Message) × List Nat :=
  match messageP src 0 with
  | .ok m p => (.ok (some m), src.drop p)
  | .err .incomplete => (.ok none, src)
  | .err .fuelOut => (.error .modelDiverged, src)
  | .err _ => (.error .invalidData, src)

/-- `bytes::BufMut::put_u16`: two big-endian bytes of a `u16`. -/
def putU16 (n : Nat) : List Nat := [n / 256 % 256, n % 256]

/-- `bytes::BufMut::put_u32`: four big-endian bytes of a `u32`. -/
def putU32 (n : Nat) : List Nat :=
  [n / 16777216 % 256, n / 65536 % 256, n / 256 % 256, n % 256]

/-- Label-list part of `Encoder<Name>`: each label as a length byte followed by its
bytes, terminated by a zero byte.  The source writes the length with
`label.len().try_into().unwrap()` into a `u8`: a label longer than 255 bytes makes
that `unwrap` PANIC, which the embedding models as `none`. -/
def encodeLabels : List (List Nat) → Option (List Nat)
  | [] => some [0]
  | l :: ls =>
    if l.length ≤ 255 then
      match encodeLabels ls with
      | some rest => some (l.length :: l ++ rest)
      | none => none
    else none

/-- `codec.rs::Encoder<Name>`: labels then the terminating zero byte; `none` models
the panic on an unrepresentable label length. -/
def encodeName (nm : Name) : Option (List Nat) :=
  encodeLabels nm.labels

/-- `codec.rs::Encoder<Header>`: six big-endian 16-bit fields. -/
def encodeHeader (h : Header) : List Nat :=
  putU16 h.id ++ putU16 h.flags.raw_value ++ putU16 h.qd_count ++ putU16 h.an_count ++
    putU16 h.ns_count ++ putU16 h.ar_count

/-- `codec.rs::Encoder<Question>`: name, qtype, qclass. -/
def encodeQuestion (q : Question) : Option (List Nat) :=
  match encodeName q.qname with
  | some n => some (n ++ putU16 q.qtype ++ putU16 q.qclass)
  | none => none

/-- `codec.rs::Encoder<ResourceRecord>`: name, type, class, ttl, rdlength, raw rdata
bytes (the `rdlength` FIELD is written, not `rdata.len()`). -/
def encodeRR (r : ResourceRecord) : Option (List Nat) :=
  match encodeName r.name with
  | some n =>
      some (n ++ putU16 r.rtype ++ putU16 r.rclass ++ putU32 r.ttl ++
        putU16 r.rdlength ++ r.rdata)
  | none => none

/-- Encode every element of a section in order, concatenating the bytes. -/
def encodeList {α : Type} (enc : α → Option (List Nat)) : List α → Option (List Nat)
  | [] => some []
  | a :: as =>
    match enc a with
    | some b =>
      match encodeList enc as with
      | some rest => some (b ++ rest)
      | none => none
    | none => none

/-- `codec.rs::Encoder<Message>`: header, questions, then answer, authority,
additional records, in order. -/
def encode (m : Message) : Option (List Nat) :=
  match encodeList encodeQuestion m.question with
  | some qs =>
    match encodeList encodeRR m.answer with
    | some ans =>
      match encodeList encodeRR m.authority with
      | some auth =>
        match encodeList encodeRR m.additional with
        | some add => some (encodeHeader m.header ++ qs ++ ans ++ auth ++ add)
        | none => none
      | none => none
    | none => none
  | none => none

/-- Wire bytes of a label list without the terminator: each label as its length byte
followed by its bytes.  `encodeLabels ls = some (labelBytes ls ++ [0])` whenever no
label overflows the length byte. -/
def labelBytes : List (List Nat) → List Nat
  | [] => []
  | l :: ls => l.length :: l ++ labelBytes ls

/-- A label as produced by a well-formed uncompressed name: non-empty, at most 63
bytes (so its length byte can never be mistaken for a pointer tag), bytes of a valid
UTF-8 Rust `String`. -/
abbrev goodLabel (l : List Nat) : Prop :=
  l ≠ [] ∧ l.length ≤ 63 ∧ (∀ b ∈ l, b < 256) ∧ utf8Valid l = true

instance : DecidablePred goodLabel := fun l => by unfold goodLabel; infer_instance

/-- All labels of the name are well formed. -/
abbrev goodName (nm : Name) : Prop := ∀ l ∈ nm.labels, goodLabel l

/-- Field bounds of a question: 16-bit codes, well-formed name. -/
abbrev goodQuestion (q : Question) : Prop :=
  goodName q.qname ∧ q.qtype < 65536 ∧ q.qclass < 65536

/-- Field bounds of a resource record: 16/32-bit codes, declared length equal to the
payload length, byte-valued payload, well-formed name. -/
abbrev goodRR (r : ResourceRecord) : Prop :=
  goodName r.name ∧ r.rtype < 65536 ∧ r.rclass < 65536 ∧ r.ttl < 4294967296 ∧
    r.rdlength < 65536 ∧ r.rdlength = r.rdata.length ∧ ∀ b ∈ r.rdata, b < 256

/-- Consistency of a hand-built message: 16-bit header fields, section counts equal
to the section lengths, all names uncompressed and well formed. -/
abbrev goodMessage (m : Message) : Prop :=
  m.header.id < 65536 ∧ m.header.flags.raw_value < 65536 ∧
    m.header.qd_count < 65536 ∧ m.header.an_count < 65536 ∧
    m.header.ns_count < 65536 ∧ m.header.ar_count < 65536 ∧
    m.header.qd_count = m.question.length ∧ m.header.an_count = m.answer.length ∧
    m.header.ns_count = m.authority.length ∧ m.header.ar_count = m.additional.length ∧
    (∀ q ∈ m.question, goodQuestion q) ∧ (∀ r ∈ m.answer, goodRR r) ∧
    (∀ r ∈ m.authority, goodRR r) ∧ (∀ r ∈ m.additional, goodRR r)

/-! ### Sample data: the two packets of the source's own tests (`parser.rs`). -/

/-- Wire bytes of the sample query of `parser.rs::tests::parse_query`. -/
def sampleQueryBytes : List Nat :=
  [0x10, 0x32, 0x01, 0x00, 0x00, 0x01, 0x00, 0x00, 0x00, 0x00, 0x00, 0x00,
   0x06, 0x67, 0x6f, 0x6f, 0x67, 0x6c, 0x65, 0x03, 0x63, 0x6f, 0x6d, 0x00,
   0x00, 0x10, 0x00, 0x01]

/-- The name `google.com` as its label byte sequences. -/
def googleCom : Name := ⟨[[0x67, 0x6f, 0x6f, 0x67, 0x6c, 0x65], [0x63, 0x6f, 0x6d]]⟩

/-- The structured message the sample query decodes to. -/
def sampleQueryMsg : Message :=
  ⟨⟨0x1032, Flags.new_with_raw_value 0x0100, 1, 0, 0, 0⟩,
   [⟨googleCom, 16, 1⟩], [], [], []⟩

/-- A message whose single question name has one 64-byte label (valid text, length
representable in one byte, counts consistent) — the smallest shape on which the
round-trip claim as stated breaks. -/
def msg64 : Message :=
  ⟨⟨1, Flags.new_with_raw_value 0, 1, 0, 0, 0⟩,
   [⟨⟨[List.replicate 64 0x61]⟩, 1, 1⟩], [], [], []⟩

/-- Wire bytes of the sample response of `parser.rs::tests::parse_response`; the
answer record's name is the compression pointer `c0 0c` to offset 12. -/
def sampleResponseBytes : List Nat :=
  [0x10, 0x32, 0x81, 0x80, 0x00, 0x01, 0x00, 0x01, 0x00, 0x00, 0x00, 0x00,
   0x06, 0x67, 0x6f, 0x6f, 0x67, 0x6c, 0x65, 0x03, 0x63, 0x6f, 0x6d, 0x00,
   0x00, 0x10, 0x00, 0x01, 0xc0, 0x0c, 0x00, 0x10, 0x00, 0x01, 0x00, 0x00,
   0x01, 0x0e, 0x00, 0x10, 0x0f, 0x76, 0x3d, 0x73, 0x70, 0x66, 0x31, 0x20,
   0x70, 0x74, 0x72, 0x20, 0x3f, 0x61, 0x6c, 0x6c]

/-! ### Local parsing of encoded bytes

Each lemma runs a parser at position `pre.length` of a buffer `pre ++ payload ++ suf`
and shows it returns the encoded value, advancing past exactly the payload. -/

theorem drop_append_cons (pre : List Nat) (b : Nat) (suf : List Nat) :
    (pre ++ b :: suf).drop pre.length = b :: suf := by
  simp

theorem beU8_at (pre : List Nat) (b : Nat) (suf : List Nat) :
    beU8 (pre ++ b :: suf) pre.length = .ok b (pre.length + 1) := by
  simp [beU8, drop_append_cons]

theorem beU16_at (pre : List Nat) (b0 b1 : Nat) (suf : List Nat) :
    beU16 (pre ++ b0 :: b1 :: suf) pre.length = .ok (b0 * 256 + b1) (pre.length + 2) := by
  simp [beU16, drop_append_cons]

theorem beU32_at (pre : List Nat) (b0 b1 b2 b3 : Nat) (suf : List Nat) :
    beU32 (pre ++ b0 :: b1 :: b2 :: b3 :: suf) pre.length =
      .ok (((b0 * 256 + b1) * 256 + b2) * 256 + b3) (pre.length + 4) := by
  simp [beU32, drop_append_cons]

theorem takeP_at (pre xs suf : List Nat) :
    takeP xs.length (pre ++ xs ++ suf) pre.length = .ok xs (pre.length + xs.length) := by
  unfold takeP
  have hle : pre.length + xs.length ≤ (pre ++ xs ++ suf).length := by
    simp only [List.length_append]; omega
  rw [if_pos hle, List.append_assoc, List.drop_left, List.take_left]

theorem beU16_putU16 (pre suf : List Nat) (v : Nat) (h : v < 65536) :
    beU16 (pre ++ putU16 v ++ suf) pre.length = .ok v (pre.length + 2) := by
  have hb : pre ++ putU16 v ++ suf = pre ++ (v / 256 % 256) :: (v % 256) :: suf := by
    simp [putU16]
  rw [hb, beU16_at]
  congr 1
  omega

theorem beU32_putU32 (pre suf : List Nat) (v : Nat) (h : v < 4294967296) :
    beU32 (pre ++ putU32 v ++ suf) pre.length = .ok v (pre.length + 4) := by
  have hb : pre ++ putU32 v ++ suf =
      pre ++ (v / 16777216 % 256) :: (v / 65536 % 256) :: (v / 256 % 256) :: (v % 256) :: suf := by
    simp [putU32]
  rw [hb, beU32_at]
  congr 1
  omega

theorem nameEnd_zero_at (pre suf : List Nat) :
    nameEnd (pre ++ 0 :: suf) pre.length = .ok none (pre.length + 1) := by
  simp [nameEnd, drop_append_cons]

/-- At the start of a well-formed encoded label, `name_end` backtracks: the two-byte
value starting with a length byte in `1..=63` is at most `0x3fff`, so it is not taken
for a compression pointer. -/
theorem nameEnd_label_at (pre l suf : List Nat) (hne : l ≠ []) (hlen : l.length ≤ 63)
    (hbytes : ∀ b ∈ l, b < 256) :
    nameEnd (pre ++ l.length :: (l ++ suf)) pre.length = .err .backtrack := by
  obtain ⟨b, t, rfl⟩ : ∃ b t, l = b :: t := by
    cases l with
    | nil => exact absurd rfl hne
    | cons b t => exact ⟨b, t, rfl⟩
  have hb : b < 256 := hbytes b (by simp)
  have h63 : t.length + 1 ≤ 63 := by simpa using hlen
  have h1 : ¬(t.length + 1 = 0) := by omega
  have h2 : ¬((t.length + 1) * 256 + b > 16383) := by omega
  unfold nameEnd
  simp [drop_append_cons, h1, h2]

theorem labelP_at (pre l suf : List Nat) (_hlen : l.length ≤ 255)
    (hval : utf8Valid l = true) :
    labelP (pre ++ l.length :: (l ++ suf)) pre.length = .ok l (pre.length + 1 + l.length) := by
  have hre : pre ++ l.length :: (l ++ suf) = (pre ++ [l.length]) ++ l ++ suf := by simp
  have htake : takeP l.length (pre ++ l.length :: (l ++ suf)) (pre.length + 1) =
      .ok l (pre.length + 1 + l.length) := by
    have := takeP_at (pre ++ [l.length]) l suf
    rw [← hre] at this
    simpa using this
  unfold labelP
  rw [beU8_at]
  simp [htake, hval]

/-- Parsing the label part of a well-formed uncompressed name: `repeat_till` collects
exactly the encoded labels and stops on the zero terminator, for any fuel exceeding
the number of labels. -/
theorem repeatTill_at (ls : List (List Nat)) :
    ∀ (fuel : Nat) (pre suf : List Nat), (∀ l ∈ ls, goodLabel l) → ls.length < fuel →
      repeatTill fuel (pre ++ labelBytes ls ++ 0 :: suf) pre.length =
        .ok (ls, none) (pre.length + (labelBytes ls).length + 1) := by
  induction ls with
  | nil =>
    intro fuel pre suf _ hfuel
    obtain ⟨f, rfl⟩ : ∃ f, fuel = f + 1 := ⟨fuel - 1, by omega⟩
    have hb : pre ++ labelBytes [] ++ 0 :: suf = pre ++ 0 :: suf := by simp [labelBytes]
    rw [hb]
    unfold repeatTill
    rw [nameEnd_zero_at]
    simp [labelBytes]
  | cons l ls ih =>
    intro fuel pre suf hgood hfuel
    obtain ⟨f, rfl⟩ : ∃ f, fuel = f + 1 := ⟨fuel - 1, by omega⟩
    obtain ⟨hne, hlen, hbytes, hval⟩ := hgood l (by simp)
    have hb : pre ++ labelBytes (l :: ls) ++ 0 :: suf
        = pre ++ l.length :: (l ++ (labelBytes ls ++ 0 :: suf)) := by
      simp [labelBytes]
    have hrec := ih f (pre ++ l.length :: l) suf (fun x hx => hgood x (by simp [hx]))
      (by simp at hfuel; omega)
    have he1 : (pre ++ l.length :: l) ++ labelBytes ls ++ 0 :: suf
        = pre ++ l.length :: (l ++ (labelBytes ls ++ 0 :: suf)) := by simp
    have he2 : (pre ++ l.length :: l).length = pre.length + 1 + l.length := by
      simp; omega
    rw [he1, he2] at hrec
    rw [hb]
    unfold repeatTill
    rw [nameEnd_label_at pre l (labelBytes ls ++ 0 :: suf) hne hlen hbytes,
      labelP_at pre l (labelBytes ls ++ 0 :: suf) (by omega) hval]
    simp only [hrec]
    have hp : pre.length + 1 + l.length + (labelBytes ls).length + 1
        = pre.length + (labelBytes (l :: ls)).length + 1 := by
      simp [labelBytes]; omega
    rw [hp]

/-- A list of labels occupies at least one byte per label on the wire. -/
theorem labelBytes_length_ge (ls : List (List Nat)) :
    ls.length ≤ (labelBytes ls).length := by
  induction ls with
  | nil => simp [labelBytes]
  | cons l ls ih => simp [labelBytes]; omega

/-- `name` on a well-formed uncompressed name returns exactly the labels and stops
right after the zero terminator, for any positive pointer fuel. -/
theorem nameP_at (f : Nat) (pre suf : List Nat) (ls : List (List Nat))
    (hgood : ∀ l ∈ ls, goodLabel l) :
    nameP (f + 1) (pre ++ labelBytes ls ++ 0 :: suf) pre.length =
      .ok ⟨ls⟩ (pre.length + (labelBytes ls).length + 1) := by
  have hfuel : ls.length < (pre ++ labelBytes ls ++ 0 :: suf).length + 1 := by
    have := labelBytes_length_ge ls
    simp [List.length_append]
    omega
  unfold nameP
  rw [repeatTill_at ls ((pre ++ labelBytes ls ++ 0 :: suf).length + 1) pre suf hgood hfuel]

/-- The structural parsers call `name` with the canonical fuel. -/
theorem parseName_at (pre suf : List Nat) (ls : List (List Nat))
    (hgood : ∀ l ∈ ls, goodLabel l) :
    parseName (pre ++ labelBytes ls ++ 0 :: suf) pre.length =
      .ok ⟨ls⟩ (pre.length + (labelBytes ls).length + 1) := by
  unfold parseName
  exact nameP_at (pre ++ labelBytes ls ++ 0 :: suf).length pre suf ls hgood

/-- When no label overflows the length byte, the name encoder succeeds and writes the
labels followed by the zero terminator. -/
theorem encodeLabels_eq (ls : List (List Nat)) (h : ∀ l ∈ ls, l.length ≤ 255) :
    encodeLabels ls = some (labelBytes ls ++ [0]) := by
  induction ls with
  | nil => simp [encodeLabels, labelBytes]
  | cons l ls ih =>
    have hl : l.length ≤ 255 := h l (by simp)
    have := ih (fun x hx => h x (by simp [hx]))
    simp [encodeLabels, labelBytes, hl, this]

/-- Unpacking the packed raw value gives back the same `Flags` for 16-bit words. -/
theorem flags_new_raw (r : Nat) (h : r < 65536) : Flags.new_with_raw_value r = ⟨r⟩ := by
  simp [Flags.new_with_raw_value, Nat.mod_eq_of_lt h]

theorem headerP_at (pre suf : List Nat) (h : Header)
    (hid : h.id < 65536) (hfl : h.flags.raw_value < 65536) (hqd : h.qd_count < 65536)
    (han : h.an_count < 65536) (hns : h.ns_count < 65536) (har : h.ar_count < 65536) :
    headerP (pre ++ encodeHeader h ++ suf) pre.length = .ok h (pre.length + 12) := by
  obtain ⟨id, ⟨fr⟩, qd, an, ns, ar⟩ := h
  simp only at hid hfl hqd han hns har
  have e1 : beU16 (pre ++ encodeHeader ⟨id, ⟨fr⟩, qd, an, ns, ar⟩ ++ suf) pre.length
      = .ok id (pre.length + 2) := by
    have hb : pre ++ encodeHeader ⟨id, ⟨fr⟩, qd, an, ns, ar⟩ ++ suf
        = pre ++ putU16 id ++ (putU16 fr ++ putU16 qd ++ putU16 an ++ putU16 ns ++
            putU16 ar ++ suf) := by
      simp [encodeHeader]
    rw [hb, beU16_putU16 _ _ _ hid]
  have e2 : beU16 (pre ++ encodeHeader ⟨id, ⟨fr⟩, qd, an, ns, ar⟩ ++ suf) (pre.length + 2)
      = .ok fr (pre.length + 4) := by
    have hb : pre ++ encodeHeader ⟨id, ⟨fr⟩, qd, an, ns, ar⟩ ++ suf
        = (pre ++ putU16 id) ++ putU16 fr ++ (putU16 qd ++ putU16 an ++ putU16 ns ++
            putU16 ar ++ suf) := by
      simp [encodeHeader]
    have hp : pre.length + 2 = (pre ++ putU16 id).length := by simp [putU16]
    rw [hb, hp, beU16_putU16 _ _ _ hfl]
    congr 1
    simp [putU16]
  have e3 : beU16 (pre ++ encodeHeader ⟨id, ⟨fr⟩, qd, an, ns, ar⟩ ++ suf) (pre.length + 4)
      = .ok qd (pre.length + 6) := by
    have hb : pre ++ encodeHeader ⟨id, ⟨fr⟩, qd, an, ns, ar⟩ ++ suf
        = (pre ++ putU16 id ++ putU16 fr) ++ putU16 qd ++ (putU16 an ++ putU16 ns ++
            putU16 ar ++ suf) := by
      simp [encodeHeader]
    have hp : pre.length + 4 = (pre ++ putU16 id ++ putU16 fr).length := by simp [putU16]
    rw [hb, hp, beU16_putU16 _ _ _ hqd]
    congr 1
    simp [putU16]
  have e4 : beU16 (pre ++ encodeHeader ⟨id, ⟨fr⟩, qd, an, ns, ar⟩ ++ suf) (pre.length + 6)
      = .ok an (pre.length + 8) := by
    have hb : pre ++ encodeHeader ⟨id, ⟨fr⟩, qd, an, ns, ar⟩ ++ suf
        = (pre ++ putU16 id ++ putU16 fr ++ putU16 qd) ++ putU16 an ++ (putU16 ns ++
            putU16 ar ++ suf) := by
      simp [encodeHeader]
    have hp : pre.length + 6 = (pre ++ putU16 id ++ putU16 fr ++ putU16 qd).length := by
      simp [putU16]
    rw [hb, hp, beU16_putU16 _ _ _ han]
    congr 1
    simp [putU16]
  have e5 : beU16 (pre ++ encodeHeader ⟨id, ⟨fr⟩, qd, an, ns, ar⟩ ++ suf) (pre.length + 8)
      = .ok ns (pre.length + 10) := by
    have hb : pre ++ encodeHeader ⟨id, ⟨fr⟩, qd, an, ns, ar⟩ ++ suf
        = (pre ++ putU16 id ++ putU16 fr ++ putU16 qd ++ putU16 an) ++ putU16 ns ++
            (putU16 ar ++ suf) := by
      simp [encodeHeader]
    have hp : pre.length + 8
        = (pre ++ putU16 id ++ putU16 fr ++ putU16 qd ++ putU16 an).length := by
      simp [putU16]
    rw [hb, hp, beU16_putU16 _ _ _ hns]
    congr 1
    simp [putU16]
  have e6 : beU16 (pre ++ encodeHeader ⟨id, ⟨fr⟩, qd, an, ns, ar⟩ ++ suf) (pre.length + 10)
      = .ok ar (pre.length + 12) := by
    have hb : pre ++ encodeHeader ⟨id, ⟨fr⟩, qd, an, ns, ar⟩ ++ suf
        = (pre ++ putU16 id ++ putU16 fr ++ putU16 qd ++ putU16 an ++ putU16 ns) ++
            putU16 ar ++ suf := by
      simp [encodeHeader]
    have hp : pre.length + 10
        = (pre ++ putU16 id ++ putU16 fr ++ putU16 qd ++ putU16 an ++ putU16 ns).length := by
      simp [putU16]
    rw [hb, hp, beU16_putU16 _ _ _ har]
    congr 1
    simp [putU16]
  unfold headerP
  simp only [e1, e2, e3, e4, e5, e6, flags_new_raw fr hfl]

theorem questionP_at (pre suf : List Nat) (q : Question) (hq : goodQuestion q)
    (qb : List Nat) (henc : encodeQuestion q = some qb) :
    questionP (pre ++ qb ++ suf) pre.length = .ok q (pre.length + qb.length) := by
  obtain ⟨⟨ls⟩, qt, qc⟩ := q
  obtain ⟨hname, hqt, hqc⟩ := hq
  have hgl : ∀ l ∈ ls, goodLabel l := hname
  have hlen255 : ∀ l ∈ ls, l.length ≤ 255 := fun l hl => by
    have := (hgl l hl).2.1; omega
  have henc' : qb = labelBytes ls ++ [0] ++ putU16 qt ++ putU16 qc := by
    unfold encodeQuestion encodeName at henc
    rw [encodeLabels_eq ls hlen255] at henc
    simp only [Option.some.injEq] at henc
    rw [← henc]
  have e1 : parseName (pre ++ qb ++ suf) pre.length
      = .ok ⟨ls⟩ (pre.length + (labelBytes ls).length + 1) := by
    have hb : pre ++ qb ++ suf
        = pre ++ labelBytes ls ++ 0 :: (putU16 qt ++ putU16 qc ++ suf) := by
      simp [henc']
    rw [hb, parseName_at _ _ _ hgl]
  have e2 : beU16 (pre ++ qb ++ suf) (pre.length + (labelBytes ls).length + 1)
      = .ok qt (pre.length + (labelBytes ls).length + 1 + 2) := by
    have hb : pre ++ qb ++ suf
        = (pre ++ labelBytes ls ++ [0]) ++ putU16 qt ++ (putU16 qc ++ suf) := by
      simp [henc']
    have hp : pre.length + (labelBytes ls).length + 1
        = (pre ++ labelBytes ls ++ [0]).length := by simp; omega
    rw [hb, hp, beU16_putU16 _ _ _ hqt]
  have e3 : beU16 (pre ++ qb ++ suf) (pre.length + (labelBytes ls).length + 1 + 2)
      = .ok qc (pre.length + (labelBytes ls).length + 1 + 2 + 2) := by
    have hb : pre ++ qb ++ suf
        = (pre ++ labelBytes ls ++ [0] ++ putU16 qt) ++ putU16 qc ++ suf := by
      simp [henc']
    have hp : pre.length + (labelBytes ls).length + 1 + 2
        = (pre ++ labelBytes ls ++ [0] ++ putU16 qt).length := by
      simp [putU16]; omega
    rw [hb, hp, beU16_putU16 _ _ _ hqc]
  unfold questionP
  simp only [e1, e2, e3]
  have hfin : pre.length + (labelBytes ls).length + 1 + 2 + 2 = pre.length + qb.length := by
    simp [henc', putU16]; omega
  rw [hfin]

theorem rrP_at (pre suf : List Nat) (r : ResourceRecord) (hr : goodRR r)
    (rb : List Nat) (henc : encodeRR r = some rb) :
    rrP (pre ++ rb ++ suf) pre.length = .ok r (pre.length + rb.length) := by
  obtain ⟨⟨ls⟩, rt, rc, ttl, rdl, rdata⟩ := r
  obtain ⟨hname, hrt, hrc, httl, hrdl, hrdeq, hrdata⟩ := hr
  simp only at hrdeq
  subst hrdeq
  have hgl : ∀ l ∈ ls, goodLabel l := hname
  have hlen255 : ∀ l ∈ ls, l.length ≤ 255 := fun l hl => by
    have := (hgl l hl).2.1; omega
  have henc' : rb = labelBytes ls ++ [0] ++ putU16 rt ++ putU16 rc ++ putU32 ttl ++
      putU16 rdata.length ++ rdata := by
    unfold encodeRR encodeName at henc
    rw [encodeLabels_eq ls hlen255] at henc
    simp only [Option.some.injEq] at henc
    rw [← henc]
  have e1 : parseName (pre ++ rb ++ suf) pre.length
      = .ok ⟨ls⟩ (pre.length + (labelBytes ls).length + 1) := by
    have hb : pre ++ rb ++ suf = pre ++ labelBytes ls ++
        0 :: (putU16 rt ++ putU16 rc ++ putU32 ttl ++ putU16 rdata.length ++ rdata ++ suf) := by
      simp [henc']
    rw [hb, parseName_at _ _ _ hgl]
  have e2 : beU16 (pre ++ rb ++ suf) (pre.length + (labelBytes ls).length + 1)
      = .ok rt (pre.length + (labelBytes ls).length + 1 + 2) := by
    have hb : pre ++ rb ++ suf = (pre ++ labelBytes ls ++ [0]) ++ putU16 rt ++
        (putU16 rc ++ putU32 ttl ++ putU16 rdata.length ++ rdata ++ suf) := by
      simp [henc']
    have hp : pre.length + (labelBytes ls).length + 1
        = (pre ++ labelBytes ls ++ [0]).length := by simp; omega
    rw [hb, hp, beU16_putU16 _ _ _ hrt]
  have e3 : beU16 (pre ++ rb ++ suf) (pre.length + (labelBytes ls).length + 1 + 2)
      = .ok rc (pre.length + (labelBytes ls).length + 1 + 2 + 2) := by
    have hb : pre ++ rb ++ suf = (pre ++ labelBytes ls ++ [0] ++ putU16 rt) ++ putU16 rc ++
        (putU32 ttl ++ putU16 rdata.length ++ rdata ++ suf) := by
      simp [henc']
    have hp : pre.length + (labelBytes ls).length + 1 + 2
        = (pre ++ labelBytes ls ++ [0] ++ putU16 rt).length := by
      simp [putU16]; omega
    rw [hb, hp, beU16_putU16 _ _ _ hrc]
  have e4 : beU32 (pre ++ rb ++ suf) (pre.length + (labelBytes ls).length + 1 + 2 + 2)
      = .ok ttl (pre.length + (labelBytes ls).length + 1 + 2 + 2 + 4) := by
    have hb : pre ++ rb ++ suf
        = (pre ++ labelBytes ls ++ [0] ++ putU16 rt ++ putU16 rc) ++ putU32 ttl ++
          (putU16 rdata.length ++ rdata ++ suf) := by
      simp [henc']
    have hp : pre.length + (labelBytes ls).length + 1 + 2 + 2
        = (pre ++ labelBytes ls ++ [0] ++ putU16 rt ++ putU16 rc).length := by
      simp [putU16]; omega
    rw [hb, hp, beU32_putU32 _ _ _ httl]
  have e5 : beU16 (pre ++ rb ++ suf) (pre.length + (labelBytes ls).length + 1 + 2 + 2 + 4)
      = .ok rdata.length
          (pre.length + (labelBytes ls).length + 1 + 2 + 2 + 4 + 2) := by
    have hb : pre ++ rb ++ suf
        = (pre ++ labelBytes ls ++ [0] ++ putU16 rt ++ putU16 rc ++ putU32 ttl) ++
          putU16 rdata.length ++ (rdata ++ suf) := by
      simp [henc']
    have hp : pre.length + (labelBytes ls).length + 1 + 2 + 2 + 4
        = (pre ++ labelBytes ls ++ [0] ++ putU16 rt ++ putU16 rc ++ putU32 ttl).length := by
      simp [putU16, putU32]; omega
    rw [hb, hp, beU16_putU16 _ _ _ hrdl]
  have e6 : takeP rdata.length (pre ++ rb ++ suf)
        (pre.length + (labelBytes ls).length + 1 + 2 + 2 + 4 + 2)
      = .ok rdata (pre.length + (labelBytes ls).length + 1 + 2 + 2 + 4 + 2 + rdata.length) := by
    have hb : pre ++ rb ++ suf
        = (pre ++ labelBytes ls ++ [0] ++ putU16 rt ++ putU16 rc ++ putU32 ttl ++
            putU16 rdata.length) ++ rdata ++ suf := by
      simp [henc']
    have hp : pre.length + (labelBytes ls).length + 1 + 2 + 2 + 4 + 2
        = (pre ++ labelBytes ls ++ [0] ++ putU16 rt ++ putU16 rc ++ putU32 ttl ++
            putU16 rdata.length).length := by
      simp [putU16, putU32]; omega
    rw [hb, hp, takeP_at]
  unfold rrP
  simp only [e1, e2, e3, e4, e5, e6]
  have hfin : pre.length + (labelBytes ls).length + 1 + 2 + 2 + 4 + 2 + rdata.length
      = pre.length + rb.length := by
    simp [henc', putU16, putU32]; omega
  rw [hfin]

/-- Parsing an exact-count repetition of an encoded section, generically in the
element parser and encoder. -/
theorem repeatN_at {α : Type} (p : List Nat → Nat → PResult α) (enc : α → Option (List Nat))
    (W : α → Prop)
    (helem : ∀ x pre suf bs, W x → enc x = some bs →
      p (pre ++ bs ++ suf) pre.length = .ok x (pre.length + bs.length)) :
    ∀ (xs : List α) (pre suf bs : List Nat), (∀ x ∈ xs, W x) → encodeList enc xs = some bs →
      repeatN p xs.length (pre ++ bs ++ suf) pre.length = .ok xs (pre.length + bs.length) := by
  intro xs
  induction xs with
  | nil =>
    intro pre suf bs _ hencl
    simp only [encodeList, Option.some.injEq] at hencl
    subst hencl
    simp [repeatN]
  | cons x xs ih =>
    intro pre suf bs hgood hencl
    unfold encodeList at hencl
    cases hx : enc x with
    | none => rw [hx] at hencl; exact absurd hencl (by simp)
    | some b =>
      rw [hx] at hencl
      cases hxs : encodeList enc xs with
      | none => rw [hxs] at hencl; exact absurd hencl (by simp)
      | some rest =>
        rw [hxs] at hencl
        simp only [Option.some.injEq] at hencl
        subst hencl
        have e1 : p (pre ++ (b ++ rest) ++ suf) pre.length = .ok x (pre.length + b.length) := by
          have hb : pre ++ (b ++ rest) ++ suf = pre ++ b ++ (rest ++ suf) := by simp
          rw [hb, helem x pre (rest ++ suf) b (hgood x (by simp)) hx]
        have e2 : repeatN p xs.length (pre ++ (b ++ rest) ++ suf) (pre.length + b.length)
            = .ok xs (pre.length + b.length + rest.length) := by
          have hb : pre ++ (b ++ rest) ++ suf = (pre ++ b) ++ rest ++ suf := by simp
          have hp : pre.length + b.length = (pre ++ b).length := by simp
          rw [hb, hp, ih (pre ++ b) suf rest (fun y hy => hgood y (by simp [hy])) hxs]
        show repeatN p (xs.length + 1) (pre ++ (b ++ rest) ++ suf) pre.length = _
        unfold repeatN
        simp only [e1, e2]
        have : pre.length + b.length + rest.length = pre.length + (b ++ rest).length := by
          simp; omega
        rw [this]

/-- C4 (amended): the round trip holds once labels are additionally required to be at
most 63 bytes — the counterexample `roundtrip_fails_64_byte_label` shows a length
byte of 64 or more is read together with the next byte as a compression pointer.  For
every message with uncompressed well-formed names (labels non-empty, at most 63
bytes, valid UTF-8 text), 16-bit header fields, section counts equal to the section
lengths, and declared `rdlength` equal to the payload length, decoding the encoding
returns exactly the message, consuming the whole buffer. -/
theorem decode_encode (m : Message) (bs : List Nat) (hgood : goodMessage m)
    (henc : encode m = some bs) : decode bs = (.ok (some m), []) := by
  obtain ⟨h, qs, ans, auth, add⟩ := m
  obtain ⟨hid, hfl, hqd, han, hns, har, hqdl, hanl, hnsl, harl, hq, ha, hu, hd⟩ := hgood
  simp only at hid hfl hqd han hns har hqdl hanl hnsl harl hq ha hu hd
  unfold encode at henc
  simp only at henc
  cases hqb : encodeList encodeQuestion qs with
  | none => rw [hqb] at henc; exact absurd henc (by simp)
  | some qb =>
  rw [hqb] at henc
  cases hab : encodeList encodeRR ans with
  | none => rw [hab] at henc; exact absurd henc (by simp)
  | some ab =>
  rw [hab] at henc
  cases hub : encodeList encodeRR auth with
  | none => rw [hub] at henc; exact absurd henc (by simp)
  | some ub =>
  rw [hub] at henc
  cases hdb : encodeList encodeRR add with
  | none => rw [hdb] at henc; exact absurd henc (by simp)
  | some db =>
  rw [hdb] at henc
  simp only [Option.some.injEq] at henc
  subst henc
  set buf := encodeHeader h ++ qb ++ ab ++ ub ++ db with hbuf
  have e1 : headerP buf 0 = .ok h 12 := by
    have hb : buf = [] ++ encodeHeader h ++ (qb ++ ab ++ ub ++ db) := by simp [hbuf]
    have := headerP_at [] (qb ++ ab ++ ub ++ db) h hid hfl hqd han hns har
    simp only [List.length_nil, List.nil_append] at this
    rw [hb]
    simpa using this
  have e2 : repeatN questionP qs.length buf 12 = .ok qs (12 + qb.length) := by
    have hb : buf = (encodeHeader h) ++ qb ++ (ab ++ ub ++ db) := by simp [hbuf]
    have hp : (12 : Nat) = (encodeHeader h).length := by simp [encodeHeader, putU16]
    have := repeatN_at questionP encodeQuestion goodQuestion
      (fun x pre suf b hx henc => questionP_at pre suf x hx b henc) qs
      (encodeHeader h) (ab ++ ub ++ db) qb hq hqb
    rw [hb, hp]
    simpa [← hp] using this
  have e3 : repeatN rrP ans.length buf (12 + qb.length) = .ok ans (12 + qb.length + ab.length) := by
    have hb : buf = (encodeHeader h ++ qb) ++ ab ++ (ub ++ db) := by simp [hbuf]
    have hp : 12 + qb.length = (encodeHeader h ++ qb).length := by
      simp [encodeHeader, putU16]; omega
    have := repeatN_at rrP encodeRR goodRR
      (fun x pre suf b hx henc => rrP_at pre suf x hx b henc) ans
      (encodeHeader h ++ qb) (ub ++ db) ab ha hab
    rw [hb, hp]
    simpa [← hp] using this
  have e4 : repeatN rrP auth.length buf (12 + qb.length + ab.length)
      = .ok auth (12 + qb.length + ab.length + ub.length) := by
    have hb : buf = (encodeHeader h ++ qb ++ ab) ++ ub ++ db := by simp [hbuf]
    have hp : 12 + qb.length + ab.length = (encodeHeader h ++ qb ++ ab).length := by
      simp [encodeHeader, putU16]; omega
    have := repeatN_at rrP encodeRR goodRR
      (fun x pre suf b hx henc => rrP_at pre suf x hx b henc) auth
      (encodeHeader h ++ qb ++ ab) db ub hu hub
    rw [hb, hp]
    simpa [← hp] using this
  have e5 : repeatN rrP add.length buf (12 + qb.length + ab.length + ub.length)
      = .ok add (12 + qb.length + ab.length + ub.length + db.length) := by
    have hb : buf = (encodeHeader h ++ qb ++ ab ++ ub) ++ db ++ [] := by simp [hbuf]
    have hp : 12 + qb.length + ab.length + ub.length
        = (encodeHeader h ++ qb ++ ab ++ ub).length := by
      simp [encodeHeader, putU16]; omega
    have := repeatN_at rrP encodeRR goodRR
      (fun x pre suf b hx henc => rrP_at pre suf x hx b henc) add
      (encodeHeader h ++ qb ++ ab ++ ub) [] db hd hdb
    rw [hb, hp]
    simpa [← hp] using this
  have hmsg : messageP buf 0 = .ok ⟨h, qs, ans, auth, add⟩ buf.length := by
    unfold messageP
    simp only [e1]
    rw [hqdl, hanl, hnsl, harl]
    simp only [e2, e3, e4, e5]
    have : 12 + qb.length + ab.length + ub.length + db.length = buf.length := by
      simp [hbuf, encodeHeader, putU16]; omega
    rw [this]
  unfold decode
  rw [hmsg]
  simp

/-! ### Inversion lemmas: what a successful parse says about the cursor -/

theorem beU8_ok {buf : List Nat} {pos b p' : Nat} (h : beU8 buf pos = .ok b p') :
    p' = pos + 1 ∧ pos < buf.length := by
  unfold beU8 at h
  cases hd : buf.drop pos with
  | nil => rw [hd] at h; exact absurd h (by simp)
  | cons x t =>
    rw [hd] at h
    have hlen := congrArg List.length hd
    simp at hlen
    cases h
    exact ⟨rfl, by omega⟩

theorem takeP_ok {n : Nat} {buf : List Nat} {pos : Nat} {bs : List Nat} {p' : Nat}
    (h : takeP n buf pos = .ok bs p') :
    p' = pos + n ∧ pos + n ≤ buf.length ∧ bs.length = n := by
  unfold takeP at h
  split at h
  case isTrue hle =>
    cases h
    refine ⟨rfl, hle, ?_⟩
    simp
    omega
  case isFalse => exact absurd h (by simp)

theorem beU16_ok {buf : List Nat} {pos v p' : Nat} (h : beU16 buf pos = .ok v p') :
    p' = pos + 2 ∧ pos + 2 ≤ buf.length := by
  unfold beU16 at h
  cases hd : buf.drop pos with
  | nil => rw [hd] at h; exact absurd h (by simp)
  | cons b0 t =>
    cases t with
    | nil => rw [hd] at h; exact absurd h (by simp)
    | cons b1 t2 =>
      rw [hd] at h
      have hlen := congrArg List.length hd
      simp at hlen
      cases h
      exact ⟨rfl, by omega⟩

theorem beU32_ok {buf : List Nat} {pos v p' : Nat} (h : beU32 buf pos = .ok v p') :
    p' = pos + 4 ∧ pos + 4 ≤ buf.length := by
  unfold beU32 at h
  cases hd : buf.drop pos with
  | nil => rw [hd] at h; exact absurd h (by simp)
  | cons b0 t =>
    cases t with
    | nil => rw [hd] at h; exact absurd h (by simp)
    | cons b1 t2 =>
      cases t2 with
      | nil => rw [hd] at h; exact absurd h (by simp)
      | cons b2 t3 =>
        cases t3 with
        | nil => rw [hd] at h; exact absurd h (by simp)
        | cons b3 t4 =>
          rw [hd] at h
          have hlen := congrArg List.length hd
          simp at hlen
          cases h
          exact ⟨rfl, by omega⟩

theorem nameEnd_ok {buf : List Nat} {pos : Nat} {e : Option Nat} {p' : Nat}
    (h : nameEnd buf pos = .ok e p') :
    p' = pos + (if e.isSome then 2 else 1) ∧ p' ≤ buf.length := by
  unfold nameEnd at h
  cases hd : buf.drop pos with
  | nil => simp only [hd] at h; exact absurd h (by simp)
  | cons b0 rest =>
    cases rest with
    | nil =>
      have hlen := congrArg List.length hd
      simp at hlen
      simp only [hd] at h
      by_cases hb0 : b0 = 0
      · rw [if_pos hb0] at h
        injection h with h4 h5
        subst h4
        subst h5
        simp
        omega
      · rw [if_neg hb0] at h
        exact absurd h (by simp)
    | cons b1 t =>
      have hlen := congrArg List.length hd
      simp at hlen
      simp only [hd] at h
      by_cases hb0 : b0 = 0
      · rw [if_pos hb0] at h
        injection h with h4 h5
        subst h4
        subst h5
        simp
        omega
      · rw [if_neg hb0] at h
        split at h
        · injection h with h4 h5
          subst h4
          subst h5
          simp
          omega
        · exact absurd h (by simp)

theorem labelP_ok {buf : List Nat} {pos : Nat} {l : List Nat} {p' : Nat}
    (h : labelP buf pos = .ok l p') :
    p' = pos + 1 + l.length ∧ p' ≤ buf.length := by
  unfold labelP at h
  cases h1 : beU8 buf pos with
  | err e => simp only [h1] at h; exact absurd h (by simp)
  | ok n p1 =>
    simp only [h1] at h
    cases h2 : takeP n buf p1 with
    | err e => simp only [h2] at h; exact absurd h (by simp)
    | ok bs p2 =>
      simp only [h2] at h
      by_cases hv : utf8Valid bs
      · rw [if_pos hv] at h
        injection h with h4 h5
        subst h4
        subst h5
        obtain ⟨hp1, _⟩ := beU8_ok h1
        obtain ⟨hp2, hle, hn⟩ := takeP_ok h2
        constructor <;> omega
      · rw [if_neg hv] at h
        exact absurd h (by simp)

theorem nameEnd_err {buf : List Nat} {pos : Nat} {e : ErrMode}
    (h : nameEnd buf pos = .err e) : e = .backtrack := by
  unfold nameEnd at h
  cases hd : buf.drop pos with
  | nil =>
    simp only [hd] at h
    injection h with h4
    exact h4.symm
  | cons b0 rest =>
    cases rest with
    | nil =>
      simp only [hd] at h
      by_cases hb0 : b0 = 0
      · rw [if_pos hb0] at h; exact absurd h (by simp)
      · rw [if_neg hb0] at h
        injection h with h4
        exact h4.symm
    | cons b1 t =>
      simp only [hd] at h
      by_cases hb0 : b0 = 0
      · rw [if_pos hb0] at h; exact absurd h (by simp)
      · rw [if_neg hb0] at h
        split at h
        · exact absurd h (by simp)
        · injection h with h4
          exact h4.symm

theorem labelP_err {buf : List Nat} {pos : Nat} {e : ErrMode}
    (h : labelP buf pos = .err e) : e = .backtrack := by
  unfold labelP at h
  cases h1 : beU8 buf pos with
  | err e1 =>
    simp only [h1] at h
    injection h with h4
    subst h4
    unfold beU8 at h1
    cases hd : buf.drop pos with
    | nil =>
      simp only [hd] at h1
      injection h1 with h5
      exact h5.symm
    | cons x t => simp only [hd] at h1; exact absurd h1 (by simp)
  | ok n p1 =>
    simp only [h1] at h
    cases h2 : takeP n buf p1 with
    | err e2 =>
      simp only [h2] at h
      injection h with h4
      subst h4
      unfold takeP at h2
      split at h2
      · exact absurd h2 (by simp)
      · injection h2 with h5
        exact h5.symm
    | ok bs p2 =>
      simp only [h2] at h
      by_cases hv : utf8Valid bs
      · rw [if_pos hv] at h; exact absurd h (by simp)
      · rw [if_neg hv] at h
        injection h with h4
        exact h4.symm

/-- A successful `repeat_till` round ends exactly at: start, plus the wire size of the
labels it read, plus one byte for a zero terminator or two for a pointer; and it
never leaves the buffer and only succeeds strictly inside it. -/
theorem repeatTill_ok : ∀ {f : Nat} {buf : List Nat} {pos : Nat} {ls : List (List Nat)}
    {e : Option Nat} {p' : Nat}, repeatTill f buf pos = .ok (ls, e) p' →
    p' = pos + (labelBytes ls).length + (if e.isSome then 2 else 1) ∧
      p' ≤ buf.length ∧ pos < buf.length := by
  intro f
  induction f with
  | zero => intro buf pos ls e p' h; exact absurd h (by simp [repeatTill])
  | succ f ih =>
    intro buf pos ls e p' h
    unfold repeatTill at h
    cases h1 : nameEnd buf pos with
    | ok e1 p1 =>
      simp only [h1] at h
      injection h with h4 h5
      injection h4 with h6 h7
      subst h6
      subst h7
      subst h5
      obtain ⟨hp, hle⟩ := nameEnd_ok h1
      refine ⟨by simp [labelBytes]; omega, hle, ?_⟩
      cases e1 <;> simp at hp <;> omega
    | err e1 =>
      have hb := nameEnd_err h1
      subst hb
      simp only [h1] at h
      cases h2 : labelP buf pos with
      | err e2 => simp only [h2] at h; exact absurd h (by simp)
      | ok l p1 =>
        simp only [h2] at h
        cases h3 : repeatTill f buf p1 with
        | err e3 => simp only [h3] at h; exact absurd h (by simp)
        | ok x p2 =>
          obtain ⟨ls2, e2⟩ := x
          simp only [h3] at h
          injection h with h4 h5
          injection h4 with h6 h7
          subst h6
          subst h7
          subst h5
          obtain ⟨hp2, hle2, hlt2⟩ := ih h3
          obtain ⟨hp1, hle1⟩ := labelP_ok h2
          refine ⟨by simp [labelBytes]; omega, hle2, by omega⟩

/-- A successful `name` parse ends exactly where its own `repeat_till` label scan
ended — after the terminator or pointer bytes, independent of any pointer target. -/
theorem nameP_ok : ∀ {f : Nat} {buf : List Nat} {pos : Nat} {nm : Name} {p' : Nat},
    nameP f buf pos = .ok nm p' →
    ∃ ls e, repeatTill (buf.length + 1) buf pos = .ok (ls, e) p' := by
  intro f
  cases f with
  | zero => intro buf pos nm p' h; exact absurd h (by simp [nameP])
  | succ f =>
    intro buf pos nm p' h
    unfold nameP at h
    cases h1 : repeatTill (buf.length + 1) buf pos with
    | err e => simp only [h1] at h; exact absurd h (by simp)
    | ok x p1 =>
      obtain ⟨ls, e⟩ := x
      cases e with
      | none =>
        simp only [h1] at h
        injection h with h4 h5
        subst h5
        exact ⟨ls, none, rfl⟩
      | some ptr =>
        simp only [h1] at h
        split at h
        · cases h2 : nameP f buf ptr with
          | err e2 => simp only [h2] at h; exact absurd h (by simp)
          | ok nm2 q =>
            simp only [h2] at h
            injection h with h4 h5
            subst h5
            exact ⟨ls, some ptr, rfl⟩
        · exact absurd h (by simp)

/-- With fuel exceeding the remaining buffer, `repeat_till` never runs out of fuel:
every parsed label consumes at least one byte, so the label loop of the source always
terminates — only the pointer recursion can diverge. -/
theorem repeatTill_no_fuelOut : ∀ (f : Nat) (buf : List Nat) (pos : Nat),
    buf.length + 1 ≤ pos + f → 1 ≤ f → repeatTill f buf pos ≠ .err .fuelOut := by
  intro f
  induction f with
  | zero => intro buf pos _ h1; exact absurd h1 (by omega)
  | succ f ih =>
    intro buf pos hf _
    unfold repeatTill
    cases h1 : nameEnd buf pos with
    | ok e p1 => simp
    | err e1 =>
      have hb := nameEnd_err h1
      subst hb
      simp only []
      cases h2 : labelP buf pos with
      | err e2 =>
        have hb2 := labelP_err h2
        subst hb2
        simp
      | ok l p1 =>
        obtain ⟨hp1, hle⟩ := labelP_ok h2
        cases h3 : repeatTill f buf p1 with
        | ok x p2 =>
          obtain ⟨ls, e⟩ := x
          simp [h3]
        | err e3 =>
          have hne : e3 ≠ .fuelOut := by
            intro hcon
            subst hcon
            exact ih buf p1 (by omega) (by omega) h3
          simp [h3, hne]

/-- A successful `name` parse starts strictly inside the buffer and ends inside it,
strictly after its start. -/
theorem nameP_bound {f : Nat} {buf : List Nat} {pos : Nat} {nm : Name} {p' : Nat}
    (h : nameP f buf pos = .ok nm p') : pos < p' ∧ p' ≤ buf.length := by
  obtain ⟨ls, e, hrt⟩ := nameP_ok h
  obtain ⟨hp, hle, hlt⟩ := repeatTill_ok hrt
  refine ⟨?_, hle⟩
  cases e <;> simp at hp <;> omega

theorem parseName_bound {buf : List Nat} {pos : Nat} {nm : Name} {p' : Nat}
    (h : parseName buf pos = .ok nm p') : pos < p' ∧ p' ≤ buf.length := by
  unfold parseName at h
  exact nameP_bound h

theorem headerP_ok {buf : List Nat} {pos : Nat} {h : Header} {p' : Nat}
    (hh : headerP buf pos = .ok h p') : p' = pos + 12 ∧ p' ≤ buf.length := by
  unfold headerP at hh
  cases e1 : beU16 buf pos with
  | err e => simp only [e1] at hh; exact absurd hh (by simp)
  | ok v1 p1 =>
  simp only [e1] at hh
  cases e2 : beU16 buf p1 with
  | err e => simp only [e2] at hh; exact absurd hh (by simp)
  | ok v2 p2 =>
  simp only [e2] at hh
  cases e3 : beU16 buf p2 with
  | err e => simp only [e3] at hh; exact absurd hh (by simp)
  | ok v3 p3 =>
  simp only [e3] at hh
  cases e4 : beU16 buf p3 with
  | err e => simp only [e4] at hh; exact absurd hh (by simp)
  | ok v4 p4 =>
  simp only [e4] at hh
  cases e5 : beU16 buf p4 with
  | err e => simp only [e5] at hh; exact absurd hh (by simp)
  | ok v5 p5 =>
  simp only [e5] at hh
  cases e6 : beU16 buf p5 with
  | err e => simp only [e6] at hh; exact absurd hh (by simp)
  | ok v6 p6 =>
  simp only [e6] at hh
  injection hh with h4 h5
  subst h5
  obtain ⟨q1, w1⟩ := beU16_ok e1
  obtain ⟨q2, w2⟩ := beU16_ok e2
  obtain ⟨q3, w3⟩ := beU16_ok e3
  obtain ⟨q4, w4⟩ := beU16_ok e4
  obtain ⟨q5, w5⟩ := beU16_ok e5
  obtain ⟨q6, w6⟩ := beU16_ok e6
  omega

theorem questionP_ok {buf : List Nat} {pos : Nat} {q : Question} {p' : Nat}
    (h : questionP buf pos = .ok q p') : pos ≤ p' ∧ p' ≤ buf.length := by
  unfold questionP at h
  cases h1 : parseName buf pos with
  | err e => simp only [h1] at h; exact absurd h (by simp)
  | ok nm p1 =>
  simp only [h1] at h
  cases h2 : beU16 buf p1 with
  | err e => simp only [h2] at h; exact absurd h (by simp)
  | ok v2 p2 =>
  simp only [h2] at h
  cases h3 : beU16 buf p2 with
  | err e => simp only [h3] at h; exact absurd h (by simp)
  | ok v3 p3 =>
  simp only [h3] at h
  injection h with h4 h5
  subst h5
  obtain ⟨w1, w2⟩ := parseName_bound h1
  obtain ⟨q2, w3⟩ := beU16_ok h2
  obtain ⟨q3, w4⟩ := beU16_ok h3
  omega

theorem rrP_ok {buf : List Nat} {pos : Nat} {r : ResourceRecord} {p' : Nat}
    (h : rrP buf pos = .ok r p') : pos ≤ p' ∧ p' ≤ buf.length := by
  unfold rrP at h
  cases h1 : parseName buf pos with
  | err e => simp only [h1] at h; exact absurd h (by simp)
  | ok nm p1 =>
  simp only [h1] at h
  cases h2 : beU16 buf p1 with
  | err e => simp only [h2] at h; exact absurd h (by simp)
  | ok v2 p2 =>
  simp only [h2] at h
  cases h3 : beU16 buf p2 with
  | err e => simp only [h3] at h; exact absurd h (by simp)
  | ok v3 p3 =>
  simp only [h3] at h
  cases h4 : beU32 buf p3 with
  | err e => simp only [h4] at h; exact absurd h (by simp)
  | ok v4 p4 =>
  simp only [h4] at h
  cases h5 : beU16 buf p4 with
  | err e => simp only [h5] at h; exact absurd h (by simp)
  | ok v5 p5 =>
  simp only [h5] at h
  cases h6 : takeP v5 buf p5 with
  | err e => simp only [h6] at h; exact absurd h (by simp)
  | ok bs p6 =>
  simp only [h6] at h
  injection h with h7 h8
  subst h8
  obtain ⟨w1, w2⟩ := parseName_bound h1
  obtain ⟨q2, w3⟩ := beU16_ok h2
  obtain ⟨q3, w4⟩ := beU16_ok h3
  obtain ⟨q4, w5⟩ := beU32_ok h4
  obtain ⟨q5, w6⟩ := beU16_ok h5
  obtain ⟨q6, w7, _⟩ := takeP_ok h6
  omega

/-- A successful exact-count repetition keeps the cursor inside the buffer, given the
element parser does. -/
theorem repeatN_ok {α : Type} (p : List Nat → Nat → PResult α)
    (hbound : ∀ {buf pos a p'}, p buf pos = .ok a p' → pos ≤ p' ∧ p' ≤ buf.length) :
    ∀ (n : Nat) {buf : List Nat} {pos : Nat} {xs : List α} {p' : Nat},
      repeatN p n buf pos = .ok xs p' → pos ≤ buf.length → pos ≤ p' ∧ p' ≤ buf.length := by
  intro n
  induction n with
  | zero =>
    intro buf pos xs p' h hpos
    unfold repeatN at h
    injection h with h1 h2
    subst h2
    exact ⟨Nat.le_refl _, hpos⟩
  | succ n ih =>
    intro buf pos xs p' h hpos
    unfold repeatN at h
    cases h1 : p buf pos with
    | err e => simp only [h1] at h; exact absurd h (by simp)
    | ok a p1 =>
    simp only [h1] at h
    cases h2 : repeatN p n buf p1 with
    | err e => simp only [h2] at h; exact absurd h (by simp)
    | ok as p2 =>
    simp only [h2] at h
    injection h with h3 h4
    subst h4
    obtain ⟨w1, w2⟩ := hbound h1
    obtain ⟨w3, w4⟩ := ih h2 w2
    omega

/-- A successful `message` parse never leaves the buffer; its final position is the
exact count of consumed bytes. -/
theorem messageP_ok {buf : List Nat} {pos : Nat} {m : Message} {p' : Nat}
    (h : messageP buf pos = .ok m p') : pos ≤ p' ∧ p' ≤ buf.length := by
  unfold messageP at h
  cases h1 : headerP buf pos with
  | err e => simp only [h1] at h; exact absurd h (by simp)
  | ok hd p1 =>
  simp only [h1] at h
  cases h2 : repeatN questionP hd.qd_count buf p1 with
  | err e => simp only [h2] at h; exact absurd h (by simp)
  | ok qs p2 =>
  simp only [h2] at h
  cases h3 : repeatN rrP hd.an_count buf p2 with
  | err e => simp only [h3] at h; exact absurd h (by simp)
  | ok ans p3 =>
  simp only [h3] at h
  cases h4 : repeatN rrP hd.ns_count buf p3 with
  | err e => simp only [h4] at h; exact absurd h (by simp)
  | ok auth p4 =>
  simp only [h4] at h
  cases h5 : repeatN rrP hd.ar_count buf p4 with
  | err e => simp only [h5] at h; exact absurd h (by simp)
  | ok add p5 =>
  simp only [h5] at h
  injection h with h6 h7
  subst h7
  obtain ⟨w1, w2⟩ := headerP_ok h1
  obtain ⟨w3, w4⟩ := repeatN_ok questionP (fun hq => questionP_ok hq) hd.qd_count h2 w2
  obtain ⟨w5, w6⟩ := repeatN_ok rrP (fun hr => rrP_ok hr) hd.an_count h3 w4
  obtain ⟨w7, w8⟩ := repeatN_ok rrP (fun hr => rrP_ok hr) hd.ns_count h4 w6
  obtain ⟨w9, w10⟩ := repeatN_ok rrP (fun hr => rrP_ok hr) hd.ar_count h5 w8
  omega


/-! ### Claim theorems -/

/-- C5: for every 16-bit value `r`, unpacking `r` into a `Flags` value and packing it
back yields `r` exactly; the bitfield stores the raw word, so every pattern —
including reserved Opcode/Rcode codes and the three reserved bits — is representable
and round-trips losslessly. -/
theorem flags_pack_unpack_roundtrip (r : Nat) (h : r < 65536) :
    (Flags.new_with_raw_value r).raw_value = r := by
  simp [Flags.new_with_raw_value, Nat.mod_eq_of_lt h]

/-- Witness for C5 at a raw word carrying a reserved opcode, a reserved rcode and
nonzero reserved bits. -/
theorem flags_pack_unpack_roundtrip_witness :
    0x734F < 65536 ∧ (Flags.new_with_raw_value 0x734F).raw_value = 0x734F :=
  ⟨by decide, flags_pack_unpack_roundtrip 0x734F (by decide)⟩

/-- C6: the claimed bit layout (bit 0 = most significant) does NOT hold of the code:
the bitfield macro numbers bits from the least significant end, so raw `0x8000` (QR
per the claim and RFC 1035) leaves the code's `qr` accessor `false` and lands in
`rcode`, raw `0x0001` sets `qr`, and the repo's own test query word `0x0100`
(recursion desired on the wire) sets `ra` instead of `rd`. -/
theorem flags_bit_layout_reversed :
    (Flags.new_with_raw_value 0x8000).qr = false ∧
      (Flags.new_with_raw_value 0x8000).rcode = 8 ∧
      (Flags.new_with_raw_value 0x0001).qr = true ∧
      (Flags.new_with_raw_value 0x0100).rd = false ∧
      (Flags.new_with_raw_value 0x0100).ra = true := by
  decide

/-- C7 counterexample: a two-byte value whose top two bits are `01` — `0x4000`, below
`0xC000` — IS treated by `name_end` as a compression pointer (offset 0), contradicting
the claim that only values with both top bits set are pointers. -/
theorem nameEnd_accepts_top_bits_01 :
    nameEnd [0x40, 0x00] 0 = .ok (some 0) 2 ∧ 0x40 * 256 + 0x00 < 0xC000 := by
  decide

/-- C7 (amended): `name_end` treats a two-byte value as a compression pointer exactly
when it exceeds `0x3fff` — when at least one of the top two bits is set — taking the
low 14 bits as the offset. -/
theorem nameEnd_pointer_iff (b0 b1 : Nat) (rest : List Nat)
    (h0 : b0 < 256) (h1 : b1 < 256) :
    nameEnd (b0 :: b1 :: rest) 0 = .ok (some ((b0 * 256 + b1) % 16384)) 2 ↔
      0x3fff < b0 * 256 + b1 := by
  unfold nameEnd
  simp only [List.drop_zero]
  by_cases hb0 : b0 = 0
  · subst hb0
    rw [if_pos rfl]
    simp
    omega
  · rw [if_neg hb0]
    by_cases hgt : 16383 < b0 * 256 + b1
    · rw [if_pos hgt]
      simp [hgt]
    · rw [if_neg hgt]
      simp [hgt]

/-- Witness for C7 (amended) at the pointer bytes `c0 0c` of the sample response. -/
theorem nameEnd_pointer_iff_witness :
    nameEnd [0xc0, 0x0c] 0 = .ok (some ((0xc0 * 256 + 0x0c) % 16384)) 2 :=
  (nameEnd_pointer_iff 0xc0 0x0c [] (by decide) (by decide)).mpr (by decide)

/-- C2: the name parser has NO cycle guard.  On the two-byte buffer `c0 00` — a
compression pointer to offset 0, i.e. to its own position — the name parse at offset
0 exhausts every finite amount of pointer fuel, so the Rust code, which has no such
bound, recurses without bound (stack overflow) instead of returning a Malformed
error. -/
theorem name_self_pointer_diverges (f : Nat) :
    nameP f [0xc0, 0x00] 0 = .err .fuelOut := by
  induction f with
  | zero => rfl
  | succ f ih =>
    rw [show nameP (f + 1) [0xc0, 0x00] 0
        = (match nameP f [0xc0, 0x00] 0 with
           | .ok nm _ => .ok ⟨[] ++ nm.labels⟩ 2
           | .err e => .err e) from rfl]
    rw [ih]

/-- C3: pointer resolution is relative to the buffer start: if the label scan at `p`
ends in a pointer to absolute offset `k`, and parsing a name directly at offset `k`
yields the label sequence of `L`, then the name parsed at `p` is exactly the labels
read before the pointer followed by `L`, ending right after the pointer bytes.
Chained pointers are covered transitively, since the hypothesis at `k` is itself a
full name parse. -/
theorem name_pointer_resolution (buf : List Nat) (f p k p1 : Nat)
    (ls : List (List Nat)) (L : Name) (q : Nat)
    (h1 : repeatTill (buf.length + 1) buf p = .ok (ls, some k) p1)
    (h2 : nameP f buf k = .ok L q) :
    nameP (f + 1) buf p = .ok ⟨ls ++ L.labels⟩ p1 := by
  have hk : k < buf.length := by
    obtain ⟨ls2, e2, hrt⟩ := nameP_ok h2
    exact (repeatTill_ok hrt).2.2
  unfold nameP
  simp only [h1]
  rw [if_pos (by omega)]
  simp only [h2]

/-- Witness for C3 on the sample response: the answer name at offset 28 is `c0 0c`,
whose label scan reads no labels and points to offset 12; the name at offset 12 is
`google.com`; the parse at 28 yields the same labels and stops at offset 30. -/
theorem name_pointer_resolution_witness :
    nameP (56 + 1) sampleResponseBytes 28 = .ok ⟨[] ++ googleCom.labels⟩ 30 :=
  name_pointer_resolution sampleResponseBytes 56 28 12 30 [] googleCom 24
    (by decide) (by decide)

/-- C9: after a successful name parse the cursor stands exactly at the end of the
name's own encoding — the start position, plus the wire size of the labels read
before the terminator, plus one byte for the zero terminator or two bytes for the
pointer — never past a pointer target, wherever that target lies. -/
theorem name_cursor_frame (f : Nat) (buf : List Nat) (pos : Nat) (nm : Name) (p2 : Nat)
    (h : nameP f buf pos = .ok nm p2) :
    ∃ ls e, repeatTill (buf.length + 1) buf pos = .ok (ls, e) p2 ∧
      p2 = pos + (labelBytes ls).length + (if e.isSome then 2 else 1) := by
  obtain ⟨ls, e, hrt⟩ := nameP_ok h
  exact ⟨ls, e, hrt, (repeatTill_ok hrt).1⟩

/-- Witness for C9 on the sample response's compressed answer name at offset 28: the
parse ends at 30 = 28 + 0 label bytes + 2 pointer bytes, not at the pointer target. -/
theorem name_cursor_frame_witness :
    ∃ ls e, repeatTill (sampleResponseBytes.length + 1) sampleResponseBytes 28
        = .ok (ls, e) 30 ∧
      30 = 28 + (labelBytes ls).length + (if e.isSome then 2 else 1) :=
  name_cursor_frame 57 sampleResponseBytes 28 googleCom 30 (by decide)

/-- C10: `decode` advances the source buffer by exactly the number of bytes the
parser consumed when it returns a message, and leaves the buffer completely unchanged
when it returns `None` or an error. -/
theorem decode_buffer_discipline (src : List Nat) :
    (forall m rest, decode src = (.ok (some m), rest) →
      ∃ p, messageP src 0 = .ok m p ∧ p ≤ src.length ∧ rest = src.drop p ∧
        rest.length = src.length - p) ∧
    ((decode src).1 = .ok none → (decode src).2 = src) ∧
    (∀ e, (decode src).1 = .error e → (decode src).2 = src) := by
  cases hm : messageP src 0 with
  | ok m2 p =>
    have hd : decode src = (.ok (some m2), src.drop p) := by
      simp only [decode, hm]
    refine ⟨?_, ?_, ?_⟩
    · intro m rest hdec
      rw [hd] at hdec
      simp only [Prod.mk.injEq, Except.ok.injEq, Option.some.injEq] at hdec
      obtain ⟨rfl, rfl⟩ := hdec
      exact ⟨p, rfl, (messageP_ok hm).2, rfl, by simp⟩
    · rw [hd]; intro hc; simp at hc
    · rw [hd]; intro e hc; simp at hc
  | err e =>
    cases e with
    | incomplete =>
      have hd : decode src = (.ok none, src) := by simp only [decode, hm]
      refine ⟨?_, ?_, ?_⟩
      · intro m rest hdec; rw [hd] at hdec; simp at hdec
      · intro _; simp [hd]
      · rw [hd]; intro e2 hc; simp at hc
    | backtrack =>
      have hd : decode src = (.error .invalidData, src) := by simp only [decode, hm]
      refine ⟨?_, ?_, ?_⟩
      · intro m rest hdec; rw [hd] at hdec; simp at hdec
      · rw [hd]; intro hc; simp at hc
      · intro e2 _; simp [hd]
    | cut =>
      have hd : decode src = (.error .invalidData, src) := by simp only [decode, hm]
      refine ⟨?_, ?_, ?_⟩
      · intro m rest hdec; rw [hd] at hdec; simp at hdec
      · rw [hd]; intro hc; simp at hc
      · intro e2 _; simp [hd]
    | fuelOut =>
      have hd : decode src = (.error .modelDiverged, src) := by simp only [decode, hm]
      refine ⟨?_, ?_, ?_⟩
      · intro m rest hdec; rw [hd] at hdec; simp at hdec
      · rw [hd]; intro hc; simp at hc
      · intro e2 _; simp [hd]

/-- Witness for C10 on the sample query: all 28 bytes are consumed and the remaining
buffer is empty. -/
theorem decode_buffer_discipline_witness :
    ∃ p, messageP sampleQueryBytes 0 = .ok sampleQueryMsg p ∧
      p ≤ sampleQueryBytes.length ∧ ([] : List Nat) = sampleQueryBytes.drop p ∧
      ([] : List Nat).length = sampleQueryBytes.length - p :=
  (decode_buffer_discipline sampleQueryBytes).1 sampleQueryMsg [] (by decide)

/-- C1: the claimed Incomplete classification does NOT hold of the code: `decode`
parses a complete (non-partial) stream, on which running out of bytes is a Backtrack
error, so every truncation of the sample query — which itself decodes successfully —
is reported as Malformed (`InvalidData`), never as `Ok(None)`. -/
theorem decode_truncation_malformed :
    decode sampleQueryBytes = (.ok (some sampleQueryMsg), []) ∧
      ∀ k, k < 27 → (decode (sampleQueryBytes.take k)).1 = .error .invalidData := by
  constructor
  · decide
  · decide

/-- Witness for C1 at the sample query cut one byte short of its end. -/
theorem decode_truncation_malformed_witness :
    26 < 27 ∧ (decode (sampleQueryBytes.take 26)).1 = .error .invalidData :=
  ⟨by decide, decode_truncation_malformed.2 26 (by decide)⟩

/-- C8: encoding a name with a label longer than 255 bytes does NOT produce a
recoverable error: the source converts the length with `try_into().unwrap()`, which
panics (modelled by `none`), both for the name alone and through a whole message. -/
theorem encode_long_label_panics :
    encodeName ⟨[List.replicate 256 0x61]⟩ = none ∧
      encode ⟨⟨1, Flags.new_with_raw_value 0, 1, 0, 0, 0⟩,
        [⟨⟨[List.replicate 256 0x61]⟩, 1, 1⟩], [], [], []⟩ = none := by
  decide

/-- C4 counterexample: a 64-byte label is allowed by the claim as stated (non-empty,
valid text, length representable in one byte), yet the round trip fails — the length
byte 0x40 and the first label byte form a two-byte value above 0x3fff, which the name
parser takes for a compression pointer, and decoding reports Malformed instead of
returning the message. -/
theorem roundtrip_fails_64_byte_label :
    utf8Valid (List.replicate 64 0x61) = true ∧
      (List.replicate 64 0x61).length ≤ 255 ∧
      ((encode msg64).map fun b => (decode b).1) = some (.error .invalidData) := by
  decide

/-- Witness for C4 (amended) on the sample query message: its encoding is the sample
wire bytes and decoding returns it exactly. -/
theorem decode_encode_roundtrip_witness :
    decode sampleQueryBytes = (.ok (some sampleQueryMsg), []) :=
  decode_encode sampleQueryMsg sampleQueryBytes (by decide) (by decide)


end Dennis
